import Mathlib

/-!
Verification of the character-level transformer (tokenizer, sampler, dataset
builder, training entry point, persistence codec, model construction) against
its natural-language specification.  JavaScript strings are modelled as
`List Char`, floating-point numbers as `ℚ` (exact arithmetic), JS `Map`s and
objects as insertion-ordered association lists, and tensors as flat `List ℚ`
value vectors together with an explicit shape.  The transcendental `exp` used
by softmax is an abstract parameter constrained to be positive, matching the
only property of `Math.exp` the sampling code relies on.
-/

/- ===================== Tokenizer (src/services/tokenizer.ts) ============= -/

/-- The one-character string for `c`, the form under which single characters
are used as keys of the tokenizer vocabulary. -/
def charStr (c : Char) : String := String.mk [c]

/-- Insertion of a character into a code-point-sorted list, modelling the
comparator of JavaScript `Array.prototype.sort` on one-character strings. -/
def cInsert (c : Char) : List Char → List Char
  | [] => [c]
  | d :: ds => if c ≤ d then c :: d :: ds else d :: cInsert c ds

/-- Insertion sort on characters: `Array.from(new Set(s.split(''))).sort()`
applied after deduplication. -/
def cSort : List Char → List Char
  | [] => []
  | c :: cs => cInsert c (cSort cs)

/-- The sorted list of distinct characters of the corpus, as produced by
`Array.from(new Set(input.split(''))).sort()`. -/
def distinctChars (corpus : List Char) : List Char := cSort corpus.dedup

/-- The `char → id` entries inserted by the constructor loop
`chars.forEach(char => { this.vocab.set(char, idx); idx++ })`,
starting from index `idx`. -/
def vocabEntries : Nat → List Char → List (String × Nat)
  | _, [] => []
  | idx, c :: cs => (charStr c, idx) :: vocabEntries (idx + 1) cs

/-- The `id → char` entries inserted by the same constructor loop. -/
def invEntries : Nat → List Char → List (Nat × String)
  | _, [] => []
  | idx, c :: cs => (idx, charStr c) :: invEntries (idx + 1) cs

/-- State of `SimpleTokenizer`: the two maps (as insertion-ordered
association lists, the iteration/lookup model of a JS `Map`) and the
recorded vocabulary size. -/
structure SimpleTokenizer where
  vocab : List (String × Nat)
  inverseVocab : List (Nat × String)
  vocabSize : Nat
  deriving DecidableEq

/-- `new SimpleTokenizer(corpus)`: reserve `'<PAD>' ↦ 0` and `'<UNK>' ↦ 1`,
then assign ids `2, 3, …` to the sorted distinct corpus characters. -/
def buildTokenizer (corpus : List Char) : SimpleTokenizer :=
  let chars := distinctChars corpus
  { vocab := ("<PAD>", 0) :: ("<UNK>", 1) :: vocabEntries 2 chars
    inverseVocab := (0, "<PAD>") :: (1, "<UNK>") :: invEntries 2 chars
    vocabSize := 2 + chars.length }

/-- First-match lookup in a string-keyed association list (`Map.get`). -/
def lookupS : List (String × Nat) → String → Option Nat
  | [], _ => none
  | (k, v) :: rest, s => if k = s then some v else lookupS rest s

/-- First-match lookup in a number-keyed association list (`Map.get`). -/
def lookupN : List (Nat × String) → Nat → Option String
  | [], _ => none
  | (k, v) :: rest, n => if k = n then some v else lookupN rest n

/-- One step of `encode`: `this.vocab.get(char) || 1`.  JavaScript `||`
treats the number `0` as falsy, so a (hypothetical) id `0` would also be
replaced by `1`; a missing character maps to `1` (`<UNK>`). -/
def encodeChar (t : SimpleTokenizer) (c : Char) : Nat :=
  match lookupS t.vocab (charStr c) with
  | some id => if id = 0 then 1 else id
  | none => 1

/-- `encode(text) = text.split('').map(char => this.vocab.get(char) || 1)`. -/
def encode (t : SimpleTokenizer) (text : List Char) : List Nat :=
  text.map (encodeChar t)

/-- One step of `decode`: `this.inverseVocab.get(id) || ''` (for strings,
`s || ''` equals `s` when present — an absent id contributes `''`). -/
def decodeId (t : SimpleTokenizer) (id : Nat) : String :=
  (lookupN t.inverseVocab id).getD ""

/-- `decode(ids) = ids.map(id => this.inverseVocab.get(id) || '').join('')`. -/
def decode (t : SimpleTokenizer) (ids : List Nat) : String :=
  String.join (ids.map (decodeId t))

/- Basic facts about the marker strings and `charStr`. -/

theorem charStr_inj {a b : Char} (h : charStr a = charStr b) : a = b := by
  have h2 : (charStr a).data = (charStr b).data := by rw [h]
  simpa [charStr] using h2

theorem charStr_ne_pad (c : Char) : charStr c ≠ "<PAD>" := by
  intro h
  have h2 : (charStr c).data.length = ("<PAD>" : String).data.length := by rw [h]
  simp [charStr] at h2

theorem charStr_ne_unk (c : Char) : charStr c ≠ "<UNK>" := by
  intro h
  have h2 : (charStr c).data.length = ("<UNK>" : String).data.length := by rw [h]
  simp [charStr] at h2

/- Permutation and membership facts for the sorted distinct characters. -/

theorem cInsert_perm (c : Char) (l : List Char) : (cInsert c l).Perm (c :: l) := by
  induction l with
  | nil => simp [cInsert]
  | cons d ds ih =>
      by_cases h : c ≤ d
      · simp [cInsert, h]
      · simp only [cInsert, if_neg h]
        exact ((ih.cons d).trans (List.Perm.swap c d ds)).symm.symm

theorem cSort_perm (l : List Char) : (cSort l).Perm l := by
  induction l with
  | nil => simp [cSort]
  | cons c cs ih =>
      exact (cInsert_perm c (cSort cs)).trans (ih.cons c)

theorem mem_distinctChars (corpus : List Char) (c : Char) :
    c ∈ distinctChars corpus ↔ c ∈ corpus := by
  unfold distinctChars
  rw [(cSort_perm corpus.dedup).mem_iff, List.mem_dedup]

theorem distinctChars_nodup (corpus : List Char) : (distinctChars corpus).Nodup :=
  ((cSort_perm corpus.dedup).nodup_iff).mpr corpus.nodup_dedup

/- Lookup in the generated vocabulary entries. -/

theorem lookup_vocabEntries_mem (chars : List Char) (hnd : chars.Nodup)
    (c : Char) (hc : c ∈ chars) (n : Nat) :
    ∃ i, i < chars.length ∧
      lookupS (vocabEntries n chars) (charStr c) = some (n + i) ∧
      lookupN (invEntries n chars) (n + i) = some (charStr c) := by
  induction chars generalizing n with
  | nil => cases hc
  | cons d ds ih =>
      rcases List.mem_cons.mp hc with rfl | hcs
      · exact ⟨0, by simp [vocabEntries, invEntries, lookupS, lookupN]⟩
      · have hd : d ≠ c := by
          rintro rfl
          exact (List.nodup_cons.mp hnd).1 hcs
        obtain ⟨i, hi, hs, hn⟩ := ih (List.nodup_cons.mp hnd).2 hcs (n + 1)
        refine ⟨i + 1, by simpa using Nat.succ_lt_succ hi, ?_, ?_⟩
        · have : charStr d ≠ charStr c := fun h => hd (charStr_inj h)
          simpa [vocabEntries, lookupS, this, Nat.add_assoc, Nat.add_comm 1 i] using hs
        · have hne : n ≠ n + (i + 1) := by omega
          simp only [invEntries, lookupN, if_neg hne]
          simpa [Nat.add_assoc, Nat.add_comm 1 i] using hn

theorem lookup_vocabEntries_not_mem (chars : List Char)
    (c : Char) (hc : c ∉ chars) (n : Nat) :
    lookupS (vocabEntries n chars) (charStr c) = none := by
  induction chars generalizing n with
  | nil => rfl
  | cons d ds ih =>
      have hd : charStr d ≠ charStr c := by
        intro h
        exact hc (by simp [charStr_inj h])
      simp only [vocabEntries, lookupS, if_neg hd]
      exact ih (fun h => hc (List.mem_cons_of_mem _ h)) (n + 1)

/-- Core per-character round trip: decoding the encoding of a single
character yields the character itself when it occurs in the corpus, and the
literal text `"<UNK>"` otherwise. -/
theorem decodeId_encodeChar (corpus : List Char) (c : Char) :
    decodeId (buildTokenizer corpus) (encodeChar (buildTokenizer corpus) c) =
      if c ∈ corpus then charStr c else "<UNK>" := by
  by_cases hc : c ∈ corpus
  · obtain ⟨i, hi, hs, hn⟩ :=
      lookup_vocabEntries_mem (distinctChars corpus) (distinctChars_nodup corpus) c
        ((mem_distinctChars corpus c).mpr hc) 2
    have henc : encodeChar (buildTokenizer corpus) c = 2 + i := by
      simp only [encodeChar, buildTokenizer, lookupS,
        if_neg (charStr_ne_pad c).symm, if_neg (charStr_ne_unk c).symm]
      rw [hs]
      simp
    rw [henc]
    have h0 : (0 : Nat) ≠ 2 + i := by omega
    have h1 : (1 : Nat) ≠ 2 + i := by omega
    simp only [decodeId, buildTokenizer, lookupN, if_neg h0, if_neg h1, if_pos hc]
    rw [hn]
    rfl
  · have henc : encodeChar (buildTokenizer corpus) c = 1 := by
      simp only [encodeChar, buildTokenizer, lookupS,
        if_neg (charStr_ne_pad c).symm, if_neg (charStr_ne_unk c).symm]
      rw [lookup_vocabEntries_not_mem (distinctChars corpus) c
        (fun h => hc ((mem_distinctChars corpus c).mp h)) 2]
    rw [henc]
    simp [decodeId, buildTokenizer, lookupN, if_neg hc]

theorem stringJoin_data (l : List String) :
    (String.join l).data = (l.map String.data).flatten := by
  rw [String.join_eq]

/-- C4: For every tokenizer built from a corpus and every string `s`
consisting only of characters that occur in that corpus,
`decode(encode(s)) == s`. -/
theorem tokenizer_roundtrip (corpus s : List Char) (h : ∀ c ∈ s, c ∈ corpus) :
    decode (buildTokenizer corpus) (encode (buildTokenizer corpus) s) =
      String.mk s := by
  apply String.ext
  rw [decode, stringJoin_data]
  simp only [encode, List.map_map, List.map_map]
  induction s with
  | nil => rfl
  | cons c cs ih =>
      have hc : c ∈ corpus := h c (List.mem_cons_self c cs)
      have hrt := decodeId_encodeChar corpus c
      rw [if_pos hc] at hrt
      simp only [List.map_cons, List.flatten_cons, Function.comp]
      rw [hrt]
      have := ih (fun d hd => h d (List.mem_cons_of_mem c hd))
      simp only [Function.comp] at this
      rw [this]
      rfl

/-- C4 witness at a concrete corpus and string. -/
theorem tokenizer_roundtrip_witness :
    (∀ c ∈ ['a', 'b', 'a'], c ∈ ['b', 'a', 'c']) ∧
      decode (buildTokenizer ['b', 'a', 'c'])
        (encode (buildTokenizer ['b', 'a', 'c']) ['a', 'b', 'a']) =
        String.mk ['a', 'b', 'a'] :=
  ⟨by decide, tokenizer_roundtrip ['b', 'a', 'c'] ['a', 'b', 'a'] (by decide)⟩

/-- C10: The reserved ids decode to the five-character marker strings
`"<PAD>"` and `"<UNK>"` (not to a single character or the empty string), and
`decode(encode(s))` replaces each character of `s` outside the corpus
alphabet with the literal text `"<UNK>"`. -/
theorem reserved_ids_decode (corpus s : List Char) :
    decode (buildTokenizer corpus) [0] = "<PAD>" ∧
    decode (buildTokenizer corpus) [1] = "<UNK>" ∧
    ("<PAD>" : String).data.length = 5 ∧ ("<UNK>" : String).data.length = 5 ∧
    decode (buildTokenizer corpus) (encode (buildTokenizer corpus) s) =
      String.join (s.map (fun c => if c ∈ corpus then charStr c else "<UNK>")) := by
  refine ⟨?_, ?_, rfl, rfl, ?_⟩
  · simp [decode, decodeId, buildTokenizer, lookupN, String.join]
  · simp [decode, decodeId, buildTokenizer, lookupN, String.join]
  · simp only [decode, encode, List.map_map]
    congr 1
    apply List.map_congr_left
    intro c _
    simpa [Function.comp] using decodeId_encodeChar corpus c

/- ============== Model construction (src/services/transformer.ts,
   src/services/layers.ts) — the shape/structure skeleton the constructors
   build; random initial values are irrelevant to construction claims. ===== -/

/-- `ModelConfig` (src/types.ts). -/
structure ModelConfig where
  vocabSize : Nat
  dModel : Nat
  numHeads : Nat
  dff : Nat
  numLayers : Nat
  maxLen : Nat
  dropoutRate : ℚ
  deriving DecidableEq

/-- Shape skeleton allocated by `new MultiHeadAttention(dModel, numHeads)`:
`depth = Math.floor(dModel / numHeads)` and four `[dModel, dModel]` weight
tensors.  The constructor performs no divisibility validation and cannot
throw. -/
structure MultiHeadAttention where
  dModel : Nat
  numHeads : Nat
  depth : Nat
  wqShape : List Nat
  wkShape : List Nat
  wvShape : List Nat
  woShape : List Nat
  deriving DecidableEq

def mkMultiHeadAttention (dModel numHeads : Nat) : MultiHeadAttention :=
  { dModel := dModel
    numHeads := numHeads
    depth := dModel / numHeads
    wqShape := [dModel, dModel]
    wkShape := [dModel, dModel]
    wvShape := [dModel, dModel]
    woShape := [dModel, dModel] }

/-- Shapes allocated by `new FeedForward(dModel, dff)`. -/
structure FeedForward where
  w1Shape : List Nat
  w2Shape : List Nat
  deriving DecidableEq

def mkFeedForward (dModel dff : Nat) : FeedForward :=
  { w1Shape := [dModel, dff], w2Shape := [dff, dModel] }

/-- Shapes allocated by `new LayerNormalization(dModel)`. -/
structure LayerNormalization where
  gammaShape : List Nat
  betaShape : List Nat
  deriving DecidableEq

def mkLayerNormalization (dModel : Nat) : LayerNormalization :=
  { gammaShape := [dModel], betaShape := [dModel] }

/-- `new EncoderBlock(dModel, numHeads, dff)`. -/
structure EncoderBlock where
  mha : MultiHeadAttention
  ffn : FeedForward
  layernorm1 : LayerNormalization
  layernorm2 : LayerNormalization
  deriving DecidableEq

def mkEncoderBlock (dModel numHeads dff : Nat) : EncoderBlock :=
  { mha := mkMultiHeadAttention dModel numHeads
    ffn := mkFeedForward dModel dff
    layernorm1 := mkLayerNormalization dModel
    layernorm2 := mkLayerNormalization dModel }

/-- `new TransformerModel(config)`: embedding table, `numLayers` encoder
blocks, final projection.  The constructor body contains no validation of
any kind and no throw path: every config is accepted. -/
structure TransformerModel where
  config : ModelConfig
  embeddingShape : List Nat
  encoderBlocks : List EncoderBlock
  finalLayerShape : List Nat
  deriving DecidableEq

def mkTransformerModel (config : ModelConfig) : TransformerModel :=
  { config := config
    embeddingShape := [config.vocabSize, config.dModel]
    encoderBlocks :=
      (List.range config.numLayers).map
        (fun _ => mkEncoderBlock config.dModel config.numHeads config.dff)
    finalLayerShape := [config.dModel, config.vocabSize] }

/-- A config whose `dModel` is not divisible by `numHeads`. -/
def cfgOdd : ModelConfig :=
  { vocabSize := 10, dModel := 5, numHeads := 2, dff := 20, numLayers := 1
    maxLen := 8, dropoutRate := 1 / 10 }

/-- C1 counterexample: the constructor accepts `cfgOdd` (`dModel = 5`,
`numHeads = 2`, `5 % 2 ≠ 0`) without any error — it allocates the embedding
table, a complete encoder block with all its parameter shapes (head depth
silently floored to `2`), and the final projection — refuting the claim that
construction fails fast on a non-divisible config. -/
theorem construction_no_validation_counterexample :
    mkTransformerModel cfgOdd =
      { config := cfgOdd
        embeddingShape := [10, 5]
        encoderBlocks := [mkEncoderBlock 5 2 20]
        finalLayerShape := [5, 10] } ∧
    (mkTransformerModel cfgOdd).encoderBlocks.map (fun b => b.mha.depth) = [2] ∧
    cfgOdd.dModel % cfgOdd.numHeads ≠ 0 := by
  refine ⟨?_, by decide, by decide⟩
  simp [mkTransformerModel, cfgOdd, List.range_succ]

/-- C1 (amended): construction never validates divisibility — even when
`dModel % numHeads ≠ 0` the constructor completes, producing all
`numLayers` blocks, each with head depth `⌊dModel / numHeads⌋`, whose heads
then cover only `numHeads * depth < dModel` dimensions. -/
theorem construction_accepts_nondivisible (cfg : ModelConfig)
    (h : cfg.dModel % cfg.numHeads ≠ 0) :
    (mkTransformerModel cfg).encoderBlocks.length = cfg.numLayers ∧
    ((mkTransformerModel cfg).encoderBlocks.all
      (fun b => b.mha.depth == cfg.dModel / cfg.numHeads)) = true ∧
    cfg.numHeads * (cfg.dModel / cfg.numHeads) < cfg.dModel := by
  refine ⟨by simp [mkTransformerModel], ?_, ?_⟩
  · simp [mkTransformerModel, List.all_eq_true, mkEncoderBlock, mkMultiHeadAttention]
  · have hmod := Nat.mod_add_div cfg.dModel cfg.numHeads
    omega

/-- C1 amended witness at `cfgOdd`. -/
theorem construction_accepts_nondivisible_witness :
    (mkTransformerModel cfgOdd).encoderBlocks.length = cfgOdd.numLayers ∧
    ((mkTransformerModel cfgOdd).encoderBlocks.all
      (fun b => b.mha.depth == cfgOdd.dModel / cfgOdd.numHeads)) = true ∧
    cfgOdd.numHeads * (cfgOdd.dModel / cfgOdd.numHeads) < cfgOdd.dModel :=
  construction_accepts_nondivisible cfgOdd (by decide)

/- ============== Sampling (src/services/generation.ts) ====================
   `sampleFromLogits(logits, temperature, topK)` modelled over `ℚ`, with the
   uniform draw `Math.random()` an explicit argument `r` and `Math.exp`
   (inside `tf.softmax`) an abstract positive function `e`.  `tf.topk`
   returns the k largest values in descending order, equal values ordered by
   ascending original index. ============== -/

/-- Temperature step: `logits.div(tf.scalar(Math.max(temperature, 1e-5)))`. -/
def adjustLogits (logits : List ℚ) (temperature : ℚ) : List ℚ :=
  logits.map (fun x => x / max temperature (1 / 100000))

/-- Values paired with their original indices, starting at `n`. -/
def enumFromQ : Nat → List ℚ → List (Nat × ℚ)
  | _, [] => []
  | n, x :: xs => (n, x) :: enumFromQ (n + 1) xs

/-- Insert an (index, value) pair into a list sorted by descending value,
ties broken by ascending index — the ordering of `tf.topk`. -/
def insertPair (a : Nat × ℚ) : List (Nat × ℚ) → List (Nat × ℚ)
  | [] => [a]
  | b :: bs =>
      if b.2 < a.2 ∨ (a.2 = b.2 ∧ a.1 < b.1) then a :: b :: bs
      else b :: insertPair a bs

/-- Sort (index, value) pairs by descending value, ties by ascending index. -/
def sortPairs : List (Nat × ℚ) → List (Nat × ℚ)
  | [] => []
  | a :: as => insertPair a (sortPairs as)

/-- `tf.topk(xs, k)` as (original index, value) pairs: the `k` best pairs in
order. -/
def topkPairs (xs : List ℚ) (k : Nat) : List (Nat × ℚ) :=
  (sortPairs (enumFromQ 0 xs)).take k

/-- `tf.softmax` over exact rationals, parameterized by the positive
exponential `e`. -/
def softmaxQ (e : ℚ → ℚ) (xs : List ℚ) : List ℚ :=
  xs.map (fun x => e x / (xs.map e).sum)

/-- The inverse-CDF accumulation loop shared by both branches:
`acc += p[i]; if (r <= acc) …` — `some i` at the first index whose running
sum reaches `r`, `none` if the loop finishes without firing. -/
def cumSelectGo (r : ℚ) : ℚ → Nat → List ℚ → Option Nat
  | _, _, [] => none
  | acc, i, p :: ps =>
      if r ≤ acc + p then some i else cumSelectGo r (acc + p) (i + 1) ps

/-- Full-vocabulary branch: on loop fall-through `return probsData.length - 1`. -/
def sampleFull (probs : List ℚ) (r : ℚ) : Nat :=
  (cumSelectGo r 0 0 probs).getD (probs.length - 1)

/-- Top-k branch selection: `selectedIndexInTopK` starts at `0` and is only
assigned when the loop fires, so fall-through leaves `0`. -/
def sampleTopKIndex (probs : List ℚ) (r : ℚ) : Nat :=
  (cumSelectGo r 0 0 probs).getD 0

/-- `sampleFromLogits`: temperature, then either the top-k branch (when
`topK > 0 && topK < logits.shape[0]`) sampling from the renormalized top-k
values and returning the original index, or softmax over the full
vocabulary. -/
def sampleFromLogits (e : ℚ → ℚ) (logits : List ℚ) (temperature : ℚ)
    (topK : Nat) (r : ℚ) : Nat :=
  if 0 < topK ∧ topK < logits.length then
    ((topkPairs (adjustLogits logits temperature) topK).map Prod.fst).getD
      (sampleTopKIndex
        (softmaxQ e ((topkPairs (adjustLogits logits temperature) topK).map Prod.snd))
        r) 0
  else
    sampleFull (softmaxQ e (adjustLogits logits temperature)) r

/-- The pair-ordering maximum of a list, matching the head of `sortPairs`. -/
def bestPair : List (Nat × ℚ) → Option (Nat × ℚ)
  | [] => none
  | a :: as =>
      match bestPair as with
      | none => some a
      | some b => some (if b.2 < a.2 ∨ (a.2 = b.2 ∧ a.1 < b.1) then a else b)

/-- `i` is the first arg-max position of `xs`: in range, never exceeded, and
strictly above every earlier entry. -/
def FirstArgmax (xs : List ℚ) (i : Nat) : Prop :=
  i < xs.length ∧ (∀ j < xs.length, xs.getD j 0 ≤ xs.getD i 0) ∧
    (∀ j < i, xs.getD j 0 < xs.getD i 0)

theorem insertPair_length (a : Nat × ℚ) (l : List (Nat × ℚ)) :
    (insertPair a l).length = l.length + 1 := by
  induction l with
  | nil => rfl
  | cons b bs ih =>
      by_cases h : b.2 < a.2 ∨ (a.2 = b.2 ∧ a.1 < b.1)
      · simp [insertPair, h]
      · simp [insertPair, h, ih]

theorem sortPairs_length (l : List (Nat × ℚ)) : (sortPairs l).length = l.length := by
  induction l with
  | nil => rfl
  | cons a as ih => simp [sortPairs, insertPair_length, ih]

theorem enumFromQ_length (xs : List ℚ) : ∀ n, (enumFromQ n xs).length = xs.length := by
  induction xs with
  | nil => intro n; rfl
  | cons x rest ih => intro n; simp [enumFromQ, ih]

theorem sortPairs_head (l : List (Nat × ℚ)) : (sortPairs l).head? = bestPair l := by
  induction l with
  | nil => rfl
  | cons a as ih =>
      cases hs : sortPairs as with
      | nil =>
          have h0 : as = [] := by
            have := sortPairs_length as
            rw [hs] at this
            exact List.length_eq_zero.mp this.symm
          subst h0
          rfl
      | cons b bs =>
          have hb : bestPair as = some b := by rw [← ih, hs]; rfl
          simp only [sortPairs, hs, bestPair, hb]
          by_cases h : b.2 < a.2 ∨ (a.2 = b.2 ∧ a.1 < b.1)
          · simp [insertPair, h]
          · simp [insertPair, h]

theorem bestPair_enumFromQ (xs : List ℚ) :
    ∀ (n : Nat) (p : Nat × ℚ), bestPair (enumFromQ n xs) = some p →
      n ≤ p.1 ∧ p.1 - n < xs.length ∧ xs.getD (p.1 - n) 0 = p.2 ∧
      (∀ j < xs.length, xs.getD j 0 ≤ p.2) ∧
      (∀ j < p.1 - n, xs.getD j 0 < p.2) := by
  induction xs with
  | nil => intro n p h; cases h
  | cons x rest ih =>
      intro n p h
      simp only [enumFromQ, bestPair] at h
      cases hb : bestPair (enumFromQ (n + 1) rest) with
      | none =>
          rw [hb] at h
          have hrest : rest = [] := by
            cases hr : rest with
            | nil => rfl
            | cons y ys =>
                rw [hr] at hb
                simp only [enumFromQ, bestPair] at hb
                cases hbb : bestPair (enumFromQ (n + 1 + 1) ys) <;>
                  simp [hbb] at hb
          subst hrest
          simp only [Option.some.injEq] at h
          subst h
          refine ⟨Nat.le_refl n, by simp, by simp, ?_, by omega⟩
          intro j hj
          have hj0 : j = 0 := Nat.lt_one_iff.mp (by simpa using hj)
          subst hj0
          simp
      | some b =>
          rw [hb] at h
          obtain ⟨hnb, hlen, hget, hle, hlt⟩ := ih (n + 1) b hb
          simp only [Option.some.injEq] at h
          by_cases hcond : b.2 < x ∨ (x = b.2 ∧ n < b.1)
          · rw [if_pos hcond] at h
            subst h
            have hbx : b.2 ≤ x := by
              rcases hcond with hlt2 | ⟨heq, _⟩
              · exact le_of_lt hlt2
              · exact le_of_eq heq.symm
            refine ⟨Nat.le_refl n, by simp, by simp, ?_, by simp⟩
            intro j hj
            cases j with
            | zero => simp
            | succ k =>
                simp only [List.getD_cons_succ, List.getD_cons_zero]
                have hk : k < rest.length := by simpa [Nat.succ_lt_succ_iff] using hj
                exact le_trans (hle k hk) hbx
          · rw [if_neg hcond] at h
            subst h
            push_neg at hcond
            have hxb : x < b.2 := by
              rcases lt_or_eq_of_le hcond.1 with h1 | h1
              · exact h1
              · exact absurd (hcond.2 h1) (by omega)
            have hd : b.1 - n = (b.1 - (n + 1)) + 1 := by omega
            refine ⟨by omega, by simp [hd]; omega, ?_, ?_, ?_⟩
            · rw [hd]
              simpa using hget
            · intro j hj
              cases j with
              | zero => simpa [hd, hget] using le_of_lt hxb
              | succ k =>
                  simp only [List.getD_cons_succ, hd]
                  have hk : k < rest.length := by simpa [Nat.succ_lt_succ_iff] using hj
                  simpa using hle k hk
            · intro j hj
              rw [hd] at hj
              cases j with
              | zero => simpa [hd, hget] using hxb
              | succ k =>
                  simp only [List.getD_cons_succ, hd]
                  have hk : k < b.1 - (n + 1) := by omega
                  simpa using hlt k hk

theorem cumSelectGo_eq_none (r : ℚ) (probs : List ℚ) :
    ∀ acc i, (∀ p ∈ probs, 0 ≤ p) → acc + probs.sum < r →
      cumSelectGo r acc i probs = none := by
  induction probs with
  | nil => intro acc i _ _; rfl
  | cons p ps ih =>
      intro acc i hpos h
      rw [List.sum_cons] at h
      have hps : 0 ≤ ps.sum :=
        List.sum_nonneg (fun q hq => hpos q (List.mem_cons_of_mem _ hq))
      have hna : ¬ r ≤ acc + p := by push_neg; linarith
      simp only [cumSelectGo, if_neg hna]
      exact ih (acc + p) (i + 1) (fun q hq => hpos q (List.mem_cons_of_mem _ hq))
        (by linarith)

theorem softmaxQ_nonneg (e : ℚ → ℚ) (he : ∀ x, 0 < e x) (xs : List ℚ) :
    ∀ p ∈ softmaxQ e xs, 0 ≤ p := by
  intro p hp
  simp only [softmaxQ, List.mem_map] at hp
  obtain ⟨x, _, rfl⟩ := hp
  refine div_nonneg (le_of_lt (he x)) (List.sum_nonneg ?_)
  intro q hq
  simp only [List.mem_map] at hq
  obtain ⟨y, _, rfl⟩ := hq
  exact le_of_lt (he y)

theorem softmaxQ_length (e : ℚ → ℚ) (xs : List ℚ) :
    (softmaxQ e xs).length = xs.length := by
  simp [softmaxQ]

theorem softmaxQ_singleton (e : ℚ → ℚ) (he : ∀ x, 0 < e x) (v : ℚ) :
    softmaxQ e [v] = [1] := by
  simp [softmaxQ, div_self (ne_of_gt (he v))]

theorem getD_map_lt (f : ℚ → ℚ) (xs : List ℚ) :
    ∀ j, j < xs.length → ∀ d, (xs.map f).getD j d = f (xs.getD j d) := by
  induction xs with
  | nil => intro j hj; simp at hj
  | cons x rest ih =>
      intro j hj d
      cases j with
      | zero => rfl
      | succ k =>
          simp only [List.map_cons, List.getD_cons_succ]
          exact ih k (by simpa [Nat.succ_lt_succ_iff] using hj) d

theorem firstArgmax_adjust (logits : List ℚ) (temperature : ℚ) (i : Nat)
    (h : FirstArgmax (adjustLogits logits temperature) i) :
    FirstArgmax logits i := by
  obtain ⟨hi, hle, hlt⟩ := h
  have ht : 0 < max temperature (1 / 100000) :=
    lt_max_of_lt_right (by norm_num)
  rw [adjustLogits, List.length_map] at hi
  refine ⟨hi, ?_, ?_⟩
  · intro j hj
    have := hle j (by simpa [adjustLogits] using hj)
    rw [adjustLogits, getD_map_lt _ _ j hj, getD_map_lt _ _ i hi] at this
    exact (div_le_div_iff_of_pos_right ht).mp this
  · intro j hj
    have := hlt j hj
    have hjlen : j < logits.length := lt_trans hj hi
    rw [adjustLogits, getD_map_lt _ _ j hjlen, getD_map_lt _ _ i hi] at this
    exact (div_lt_div_iff_of_pos_right ht).mp this

theorem firstArgmax_unique (xs : List ℚ) (i j : Nat)
    (hi : FirstArgmax xs i) (hj : FirstArgmax xs j) : i = j := by
  rcases lt_trichotomy i j with h | h | h
  · have h1 := hj.2.2 i h
    have h2 := hi.2.1 j hj.1
    exact absurd h1 (not_lt.mpr h2)
  · exact h
  · have h1 := hi.2.2 j h
    have h2 := hj.2.1 i hi.1
    exact absurd h1 (not_lt.mpr h2)

/-- In the top-k branch with any `k ≥ 1`, the first listed candidate is the
best pair of the adjusted logits, and its index is the first arg-max. -/
theorem topkPairs_head (xs : List ℚ) (hne : xs ≠ []) (k : Nat) (hk : 0 < k) :
    ∃ p rest, topkPairs xs k = p :: rest ∧
      FirstArgmax xs p.1 ∧ xs.getD p.1 0 = p.2 := by
  cases hsp : sortPairs (enumFromQ 0 xs) with
  | nil =>
      exfalso
      have h1 := sortPairs_length (enumFromQ 0 xs)
      rw [hsp, enumFromQ_length] at h1
      exact hne (List.length_eq_zero.mp h1.symm)
  | cons p rest =>
      have hbp : bestPair (enumFromQ 0 xs) = some p := by
        rw [← sortPairs_head, hsp]
        rfl
      obtain ⟨_, hlen, hget, hle, hlt⟩ := bestPair_enumFromQ xs 0 p hbp
      simp only [Nat.sub_zero] at hlen hget hlt
      obtain ⟨k1, rfl⟩ : ∃ k1, k = k1 + 1 := ⟨k - 1, by omega⟩
      refine ⟨p, rest.take k1, ?_, ⟨hlen, ?_, ?_⟩, hget⟩
      · simp [topkPairs, hsp]
      · intro j hj
        rw [hget]
        exact hle j hj
      · intro j hj
        rw [hget]
        exact hlt j hj

/-- Shared argument for the deterministic `topK = 1` case: for any draw
`r < 1` the sampler returns the first arg-max index of the logits. -/
theorem sampleFromLogits_topk1 (e : ℚ → ℚ) (he : ∀ x, 0 < e x)
    (logits : List ℚ) (hne : logits ≠ []) (temperature r : ℚ) (hr : r < 1) :
    FirstArgmax logits (sampleFromLogits e logits temperature 1 r) := by
  have hlen : 0 < logits.length := List.length_pos.mpr hne
  by_cases hbr : 0 < 1 ∧ 1 < logits.length
  · -- top-k branch: singleton top-k distribution [1], loop fires at index 0
    have hane : adjustLogits logits temperature ≠ [] := by
      simp [adjustLogits, hne]
    obtain ⟨p, rest, htk, hfa, _⟩ :=
      topkPairs_head (adjustLogits logits temperature) hane 1 (by omega)
    have hrest : rest = [] := by
      have h1 : (topkPairs (adjustLogits logits temperature) 1).length ≤ 1 :=
        List.length_take_le 1 _
      rw [htk] at h1
      simp only [List.length_cons] at h1
      exact List.length_eq_zero.mp (by omega)
    subst hrest
    have hsel :
        sampleTopKIndex
          (softmaxQ e ((topkPairs (adjustLogits logits temperature) 1).map Prod.snd)) r
          = 0 := by
      rw [htk]
      simp only [List.map_cons, List.map_nil]
      rw [softmaxQ_singleton e he p.2]
      simp only [sampleTopKIndex, cumSelectGo]
      rw [if_pos (by linarith)]
      rfl
    rw [sampleFromLogits, if_pos hbr, hsel, htk]
    exact firstArgmax_adjust logits temperature p.1 hfa
  · -- full branch: logits has exactly one entry, softmax is [1]
    have hone : logits.length = 1 := by omega
    obtain ⟨x, rfl⟩ : ∃ x, logits = [x] := by
      cases logits with
      | nil => cases hne rfl
      | cons y ys =>
          cases ys with
          | nil => exact ⟨y, rfl⟩
          | cons z zs => simp at hone
    rw [sampleFromLogits, if_neg hbr]
    have hadj : adjustLogits [x] temperature = [x / max temperature (1 / 100000)] := rfl
    rw [hadj, softmaxQ_singleton e he _]
    simp only [sampleFull, cumSelectGo]
    rw [if_pos (by linarith)]
    simp only [Option.getD_some]
    refine ⟨by simp, ?_, by omega⟩
    intro j hj
    have hj0 : j = 0 := Nat.lt_one_iff.mp (by simpa using hj)
    subst hj0
    exact le_refl _

/-- C8: with `topK = 1` (and any temperature, clamped to the `1e-5` floor),
sampling is deterministic: for every logit vector and every uniform draw the
sampler returns the first arg-max logit id, so two runs on the same logits
return the same id. -/
theorem topk1_sampling_deterministic_argmax (e : ℚ → ℚ) (he : ∀ x, 0 < e x)
    (logits : List ℚ) (hne : logits ≠ []) (temperature r r' : ℚ)
    (hr : r < 1) (hr' : r' < 1) :
    FirstArgmax logits (sampleFromLogits e logits temperature 1 r) ∧
    sampleFromLogits e logits temperature 1 r =
      sampleFromLogits e logits temperature 1 r' := by
  have h1 := sampleFromLogits_topk1 e he logits hne temperature r hr
  have h2 := sampleFromLogits_topk1 e he logits hne temperature r' hr'
  exact ⟨h1, firstArgmax_unique _ _ _ h1 h2⟩

/-- C8 witness: concrete logits `[1, 3, 2]`, two different draws. -/
theorem topk1_sampling_deterministic_argmax_witness :
    FirstArgmax [1, 3, 2] (sampleFromLogits (fun _ => 1) [1, 3, 2] (1 / 2) 1 (1 / 2)) ∧
    sampleFromLogits (fun _ => 1) [1, 3, 2] (1 / 2) 1 (1 / 2) =
      sampleFromLogits (fun _ => 1) [1, 3, 2] (1 / 2) 1 (1 / 3) :=
  topk1_sampling_deterministic_argmax (fun _ => 1) (fun _ => one_pos) [1, 3, 2]
    (by simp) (1 / 2) (1 / 2) (1 / 3) (by norm_num) (by norm_num)

/-- C2 (amended): when the uniform draw exceeds the accumulated cumulative
probability sum, only the full-vocabulary branch falls back to the last
(highest-id) candidate; the top-k branch leaves `selectedIndexInTopK` at `0`
and returns the FIRST listed top-k candidate — the arg-max (most probable)
id — not the last one. -/
theorem sampler_overshoot_fallback :
    (∀ (e : ℚ → ℚ), (∀ x, 0 < e x) → ∀ (logits : List ℚ) (temperature : ℚ)
        (topK : Nat) (r : ℚ), ¬(0 < topK ∧ topK < logits.length) →
        (softmaxQ e (adjustLogits logits temperature)).sum < r →
        sampleFromLogits e logits temperature topK r = logits.length - 1) ∧
    (∀ (e : ℚ → ℚ), (∀ x, 0 < e x) → ∀ (logits : List ℚ) (temperature : ℚ)
        (topK : Nat) (r : ℚ), (0 < topK ∧ topK < logits.length) →
        (softmaxQ e ((topkPairs (adjustLogits logits temperature) topK).map
          Prod.snd)).sum < r →
        sampleFromLogits e logits temperature topK r =
          ((topkPairs (adjustLogits logits temperature) topK).map Prod.fst).getD 0 0 ∧
        FirstArgmax logits (sampleFromLogits e logits temperature topK r)) := by
  constructor
  · intro e he logits temperature topK r hbr hsum
    rw [sampleFromLogits, if_neg hbr, sampleFull,
      cumSelectGo_eq_none r _ 0 0 (softmaxQ_nonneg e he _) (by simpa using hsum),
      Option.getD_none, softmaxQ_length, adjustLogits, List.length_map]
  · intro e he logits temperature topK r hbr hsum
    have hne : logits ≠ [] := List.length_pos.mp (lt_trans hbr.1 hbr.2)
    have hane : adjustLogits logits temperature ≠ [] := by
      simp only [adjustLogits, ne_eq, List.map_eq_nil_iff]
      exact hne
    obtain ⟨p, rest, htk, hfa, _⟩ :=
      topkPairs_head (adjustLogits logits temperature) hane topK hbr.1
    have hsel :
        sampleTopKIndex
          (softmaxQ e ((topkPairs (adjustLogits logits temperature) topK).map
            Prod.snd)) r = 0 := by
      rw [sampleTopKIndex,
        cumSelectGo_eq_none r _ 0 0 (softmaxQ_nonneg e he _) (by simpa using hsum)]
      rfl
    rw [sampleFromLogits, if_pos hbr, hsel]
    constructor
    · rfl
    · rw [htk]
      simp only [List.map_cons, List.getD_cons_zero]
      exact firstArgmax_adjust logits temperature p.1 hfa

/-- C2 witness: the full-vocabulary part at logits `[0, 0]`, `topK = 0`,
draw `2`; the top-k part at logits `[0, 0, 0]`, `topK = 2`, draw `2`. -/
theorem sampler_overshoot_fallback_witness :
    sampleFromLogits (fun _ => 1) [0, 0] 1 0 2 = 1 ∧
    (sampleFromLogits (fun _ => 1) [0, 0, 0] 1 2 2 =
        ((topkPairs (adjustLogits [0, 0, 0] 1) 2).map Prod.fst).getD 0 0 ∧
      FirstArgmax [0, 0, 0] (sampleFromLogits (fun _ => 1) [0, 0, 0] 1 2 2)) := by
  constructor
  · have h := sampler_overshoot_fallback.1 (fun _ => 1) (fun _ => one_pos) [0, 0] 1 0 2
      (by simp) (by norm_num [softmaxQ, adjustLogits])
    simpa using h
  · exact sampler_overshoot_fallback.2 (fun _ => 1) (fun _ => one_pos) [0, 0, 0] 1 2 2
      (by norm_num)
      (by norm_num [softmaxQ, adjustLogits, topkPairs, enumFromQ, sortPairs, insertPair])

/-- C2 counterexample: at equal logits `[0, 0, 0]` (so the renormalized
top-2 distribution is `[1/2, 1/2]` under any positive exponential) and a
draw `2` exceeding the cumulative sum `1`, the top-k branch returns id `0`
— the first top-k candidate — while the last (highest-id) candidate of the
sampled distribution is `1`.  The claim that both branches fall back to the
last candidate is therefore false. -/
theorem sampler_overshoot_fallback_counterexample :
    (0 < 2 ∧ 2 < ([(0 : ℚ), 0, 0]).length) ∧
    (softmaxQ (fun _ => (1 : ℚ))
        ((topkPairs (adjustLogits [0, 0, 0] 1) 2).map Prod.snd)).sum < 2 ∧
    sampleFromLogits (fun _ => (1 : ℚ)) [0, 0, 0] 1 2 2 = 0 ∧
    ((topkPairs (adjustLogits [0, 0, 0] 1) 2).map Prod.fst).getD (2 - 1) 0 = 1 ∧
    (0 : Nat) ≠ 1 := by
  refine ⟨by norm_num, ?_, ?_, ?_, by norm_num⟩
  · norm_num [softmaxQ, adjustLogits, topkPairs, enumFromQ, sortPairs, insertPair]
  · norm_num [sampleFromLogits, sampleTopKIndex, cumSelectGo, softmaxQ,
      adjustLogits, topkPairs, enumFromQ, sortPairs, insertPair]
  · norm_num [adjustLogits, topkPairs, enumFromQ, sortPairs, insertPair]

/- ============== Dataset & training (src/services/training.ts) =========== -/

/-- The input windows `ids.slice(i, i + seqLen)` collected by the loop
`for (i = 0; i <= ids.length - seqLen - 1; i++)`. -/
def inputWindows (ids : List Nat) (seqLen : Nat) : List (List Nat) :=
  (List.range (ids.length - seqLen)).map (fun i => (ids.drop i).take seqLen)

/-- The target windows `ids.slice(i + 1, i + seqLen + 1)` of the same loop. -/
def targetWindows (ids : List Nat) (seqLen : Nat) : List (List Nat) :=
  (List.range (ids.length - seqLen)).map (fun i => (ids.drop (i + 1)).take seqLen)

/-- The dataset record: `[numSamples, seqLen]`-shaped integer matrices as
row lists. -/
structure Dataset where
  inputs : List (List Nat)
  targets : List (List Nat)
  numSamples : Nat
  seqLen : Nat
  deriving DecidableEq

/-- `buildDataset(text, tokenizer, seqLen, batchSize)`: encode, build all
sliding windows, truncate the count to the largest multiple of `batchSize`,
and throw when zero samples remain. -/
def buildDataset (text : List Char) (tokenizer : SimpleTokenizer)
    (seqLen batchSize : Nat) : Except String Dataset :=
  let ids := encode tokenizer text
  let inputIndices := inputWindows ids seqLen
  let targetIndices := targetWindows ids seqLen
  let numSamples := inputIndices.length / batchSize * batchSize
  if numSamples = 0 then
    Except.error "Text too short for current sequence length and batch size."
  else
    Except.ok { inputs := inputIndices.take numSamples
                targets := targetIndices.take numSamples
                numSamples := numSamples
                seqLen := seqLen }

theorem getD_map_range (f : Nat → List Nat) (n i : Nat) (h : i < n) :
    ((List.range n).map f).getD i [] = f i := by
  rw [List.getD_eq_getElem?_getD, List.getElem?_map, List.getElem?_range h]
  rfl

theorem inputWindows_length (ids : List Nat) (seqLen : Nat) :
    (inputWindows ids seqLen).length = ids.length - seqLen := by
  simp [inputWindows]

theorem targetWindows_length (ids : List Nat) (seqLen : Nat) :
    (targetWindows ids seqLen).length = ids.length - seqLen := by
  simp [targetWindows]

theorem encode_length (t : SimpleTokenizer) (text : List Char) :
    (encode t text).length = text.length := by
  simp [encode]

/-- C5: for corpus length `C`, sequence length `L` and batch size `B`,
`buildDataset` builds exactly `max(0, C - L)` raw sliding windows — window
`i` being `ids[i .. i+L)` (input) and `ids[i+1 .. i+L+1)` (target) of the
encoded corpus — and every successfully returned dataset holds
`⌊(C - L) / B⌋ * B` samples, the largest multiple of `B` not exceeding the
raw window count, remainder windows dropped. -/
theorem buildDataset_window_counts :
    (∀ (text : List Char) (tokenizer : SimpleTokenizer) (seqLen : Nat),
      ((inputWindows (encode tokenizer text) seqLen).length : ℤ) =
        max 0 ((text.length : ℤ) - seqLen) ∧
      (targetWindows (encode tokenizer text) seqLen).length =
        (inputWindows (encode tokenizer text) seqLen).length) ∧
    (∀ (ids : List Nat) (seqLen i : Nat), i < ids.length - seqLen →
      (inputWindows ids seqLen).getD i [] = (ids.drop i).take seqLen ∧
      (targetWindows ids seqLen).getD i [] = (ids.drop (i + 1)).take seqLen) ∧
    (∀ (text : List Char) (tokenizer : SimpleTokenizer) (seqLen batchSize : Nat)
        (d : Dataset),
      buildDataset text tokenizer seqLen batchSize = Except.ok d →
      d.numSamples = (text.length - seqLen) / batchSize * batchSize ∧
      d.inputs.length = d.numSamples ∧ d.targets.length = d.numSamples ∧
      0 < d.numSamples) := by
  refine ⟨?_, ?_, ?_⟩
  · intro text tokenizer seqLen
    rw [inputWindows_length, targetWindows_length, encode_length]
    exact ⟨by omega, rfl⟩
  · intro ids seqLen i hi
    exact ⟨getD_map_range _ _ i hi, getD_map_range _ _ i hi⟩
  · intro text tokenizer seqLen batchSize d hd
    simp only [buildDataset] at hd
    split at hd
    · cases hd
    · rename_i hns
      cases hd
      have hle : (inputWindows (encode tokenizer text) seqLen).length / batchSize *
          batchSize ≤ (inputWindows (encode tokenizer text) seqLen).length :=
        Nat.div_mul_le_self _ _
      have hteq : (targetWindows (encode tokenizer text) seqLen).length =
          (inputWindows (encode tokenizer text) seqLen).length := by
        rw [targetWindows_length, inputWindows_length]
      refine ⟨?_, ?_, ?_, ?_⟩
      · rw [inputWindows_length, encode_length]
      · rw [List.length_take]
        exact Nat.min_eq_left hle
      · rw [List.length_take, hteq]
        exact Nat.min_eq_left hle
      · exact Nat.pos_of_ne_zero hns

/-- C5 witness: corpus `"HELLO"`, `L = 3`, `B = 1` gives 2 raw windows and
2 samples. -/
theorem buildDataset_window_counts_witness :
    (((inputWindows (encode (buildTokenizer ['H', 'E', 'L', 'L', 'O'])
        ['H', 'E', 'L', 'L', 'O']) 3).length : ℤ) =
      max 0 ((['H', 'E', 'L', 'L', 'O'].length : ℤ) - 3) ∧
      (targetWindows (encode (buildTokenizer ['H', 'E', 'L', 'L', 'O'])
        ['H', 'E', 'L', 'L', 'O']) 3).length =
        (inputWindows (encode (buildTokenizer ['H', 'E', 'L', 'L', 'O'])
          ['H', 'E', 'L', 'L', 'O']) 3).length) ∧
    ((inputWindows [2, 3, 4, 4, 5] 3).getD 0 [] = [2, 3, 4] ∧
      (targetWindows [2, 3, 4, 4, 5] 3).getD 0 [] = [3, 4, 4]) ∧
    ((buildDataset ['H', 'E', 'L', 'L', 'O']
        (buildTokenizer ['H', 'E', 'L', 'L', 'O']) 3 1).map Dataset.numSamples =
      Except.ok 2) := by
  refine ⟨(buildDataset_window_counts.1 _ _ 3), ?_, ?_⟩
  · obtain ⟨h1, h2⟩ := buildDataset_window_counts.2.1 [2, 3, 4, 4, 5] 3 0 (by decide)
    exact ⟨h1.trans (by decide), h2.trans (by decide)⟩
  · have h := buildDataset_window_counts.2.2 ['H', 'E', 'L', 'L', 'O']
      (buildTokenizer ['H', 'E', 'L', 'L', 'O']) 3 1
    cases hb : buildDataset ['H', 'E', 'L', 'L', 'O']
        (buildTokenizer ['H', 'E', 'L', 'L', 'O']) 3 1 with
    | error e => cases hb ▸ (by decide :
        (buildDataset ['H', 'E', 'L', 'L', 'O']
          (buildTokenizer ['H', 'E', 'L', 'L', 'O']) 3 1).isOk = true)
    | ok d =>
        obtain ⟨h1, _, _, _⟩ := h d hb
        simp only [Except.map]
        exact congrArg Except.ok (h1.trans (by decide))

/-- A named trainable parameter tensor: flattened values plus shape, the
unit of `getTrainableVariables()` / the persistence codec. -/
structure NamedVar where
  name : String
  shape : List Nat
  data : List ℚ
  deriving DecidableEq

/-- The model's trainable variables, in the insertion order of
`getTrainableVariables()`; the source generates pairwise-distinct names
(`emb_embedding`, `blk0_mha_wq`, …, `final_proj`). -/
abbrev ModelVars := List NamedVar

/-- `TrainingConfig` (src/types.ts). -/
structure TrainingConfig where
  batchSize : Nat
  epochs : Nat
  learningRate : ℚ
  seqLen : Nat

/-- `trainModel(model, tokenizer, corpus, config, onLog)`: builds the
dataset; on failure logs the error and returns with parameters untouched;
on success runs `epochs × (numSamples / batchSize)` optimizer steps in
order.  The tensor computation of one batch — forward pass, cross-entropy
loss, `tf.variableGrads`, `optimizer.applyGradients` — is delegated to the
tfjs substrate and abstracted as `optStep params epoch stp`; the returned
pair is (final parameters, log lines). -/
def trainModel (optStep : ModelVars → Nat → Nat → ModelVars)
    (vars : ModelVars) (tokenizer : SimpleTokenizer) (corpus : List Char)
    (config : TrainingConfig) : ModelVars × List String :=
  match buildDataset corpus tokenizer config.seqLen config.batchSize with
  | Except.error msg =>
      (vars, ["Preparing dataset from " ++ toString corpus.length ++ " characters...",
              "Error: " ++ msg])
  | Except.ok d =>
      ((List.range config.epochs).foldl
        (fun acc epoch =>
          (List.range (d.numSamples / config.batchSize)).foldl
            (fun acc2 stp => optStep acc2 epoch stp) acc)
        vars,
       ["Preparing dataset from " ++ toString corpus.length ++ " characters...",
        "Dataset created. Samples: " ++ toString d.numSamples ++
          ". Batches per epoch: " ++ toString (d.numSamples / config.batchSize),
        "Training complete. Weights updated."])

/-- C6: whenever dataset construction fails, `trainModel` reports the
descriptive error through the log callback and returns with every model
parameter unchanged — no optimizer step is applied. -/
theorem trainModel_failure_leaves_params
    (optStep : ModelVars → Nat → Nat → ModelVars) (vars : ModelVars)
    (tokenizer : SimpleTokenizer) (corpus : List Char) (config : TrainingConfig)
    (msg : String)
    (h : buildDataset corpus tokenizer config.seqLen config.batchSize =
      Except.error msg) :
    (trainModel optStep vars tokenizer corpus config).1 = vars ∧
    ("Error: " ++ msg) ∈ (trainModel optStep vars tokenizer corpus config).2 := by
  rw [trainModel, h]
  exact ⟨rfl, by simp⟩

/-- C6 witness: a two-character corpus with `seqLen = 32`, `batchSize = 4`
yields zero windows; training leaves the (nonempty) parameter list
untouched and logs the error. -/
theorem trainModel_failure_leaves_params_witness :
    (trainModel (fun acc _ _ => acc ++ acc) [⟨"final_proj", [2], [1, 2]⟩]
        (buildTokenizer ['A', 'B']) ['A', 'B'] ⟨4, 10, 1 / 200, 32⟩).1 =
      [⟨"final_proj", [2], [1, 2]⟩] ∧
    ("Error: Text too short for current sequence length and batch size.") ∈
      (trainModel (fun acc _ _ => acc ++ acc) [⟨"final_proj", [2], [1, 2]⟩]
        (buildTokenizer ['A', 'B']) ['A', 'B'] ⟨4, 10, 1 / 200, 32⟩).2 :=
  trainModel_failure_leaves_params (fun acc _ _ => acc ++ acc)
    [⟨"final_proj", [2], [1, 2]⟩] (buildTokenizer ['A', 'B']) ['A', 'B']
    ⟨4, 10, 1 / 200, 32⟩ "Text too short for current sequence length and batch size."
    rfl

/- ============== Persistence codec (src/services/persistence.ts) ========= -/

/-- `SerializedTokenizer`: the two directional maps and vocabulary size.
`Object.fromEntries`/`Object.entries` preserve the entry sequences here
(string keys keep insertion order; the numeric keys of `idToChar` are
inserted in ascending order, the enumeration order of integer-like keys). -/
structure SerializedTokenizer where
  charToId : List (String × Nat)
  idToChar : List (Nat × String)
  vocabSize : Nat
  deriving DecidableEq

/-- One entry of `SerializedWeights`: `{shape, data}` under a name. -/
structure WeightEntry where
  name : String
  shape : List Nat
  data : List ℚ
  deriving DecidableEq

/-- `SavedModelState`: config, serialized tokenizer, weights, timestamp. -/
structure SavedModelState where
  config : ModelConfig
  tokenizer : SerializedTokenizer
  weights : List WeightEntry
  timestamp : Nat
  deriving DecidableEq

/-- The weight-extraction loop of `exportModelState`: for each variable,
record its shape and its exact flattened values. -/
def exportWeights (vars : ModelVars) : List WeightEntry :=
  vars.map (fun v => { name := v.name, shape := v.shape, data := v.data })

/-- `exportModelState(model, tokenizer)`. -/
def exportModelState (vars : ModelVars) (config : ModelConfig)
    (tokenizer : SimpleTokenizer) (now : Nat) : SavedModelState :=
  { config := config
    tokenizer := { charToId := tokenizer.vocab
                   idToChar := tokenizer.inverseVocab
                   vocabSize := tokenizer.vocabSize }
    weights := exportWeights vars
    timestamp := now }

/-- `importTokenizer(serialized) = new SimpleTokenizer(serialized)`
(hydration branch of the tokenizer constructor). -/
def importTokenizer (s : SerializedTokenizer) : SimpleTokenizer :=
  { vocab := s.charToId, inverseVocab := s.idToChar, vocabSize := s.vocabSize }

/-- `vars[name]` lookup in the map captured from
`getTrainableVariables()`. -/
def lookupVar : ModelVars → String → Option NamedVar
  | [], _ => none
  | v :: vs, n => if v.name = n then some v else lookupVar vs n

/-- `v.assign(tensor)`: in-place overwrite of the values of the variable(s)
carrying the given name; shapes and names are untouched. -/
def assignVar (vars : ModelVars) (n : String) (d : List ℚ) : ModelVars :=
  vars.map (fun v => if v.name = n then { v with data := d } else v)

/-- One iteration of the `importModelState` loop: skip when the name is
absent, skip when the shapes differ, otherwise assign. -/
def importStep (vars : ModelVars) (w : WeightEntry) : ModelVars :=
  match lookupVar vars w.name with
  | none => vars
  | some v => if v.shape = w.shape then assignVar vars w.name w.data else vars

/-- The full `for (const [name, spec] of Object.entries(state.weights))`
loop, processing entries in order. -/
def importWeights (vars : ModelVars) : List WeightEntry → ModelVars
  | [] => vars
  | w :: ws => importWeights (importStep vars w) ws

/-- `importModelState(model, state)`. -/
def importModelState (vars : ModelVars) (state : SavedModelState) : ModelVars :=
  importWeights vars state.weights

/-- The last saved entry matching a live variable's name and shape. -/
def lastMatch (ws : List WeightEntry) (n : String) (s : List Nat) :
    Option WeightEntry :=
  (ws.filter (fun w => decide (w.name = n ∧ w.shape = s))).getLast?

/-- Modelled from the spec (§4.7 import contract): each named weight of the
saved state is processed independently — a live variable receives the data
of the last state entry whose name and shape both match it, and keeps its
value when no entry matches; mismatches are skipped without aborting. -/
def specRestore (ws : List WeightEntry) (v : NamedVar) : NamedVar :=
  match lastMatch ws v.name v.shape with
  | some w => { v with data := w.data }
  | none => v

/-- The (name, shape) signature of a variable. -/
def varSig (v : NamedVar) : String × List Nat := (v.name, v.shape)

theorem getLast?_cons_eq {α : Type} (a : α) (l : List α) :
    (a :: l).getLast? = some (l.getLast?.getD a) := by
  cases l with
  | nil => rfl
  | cons b bs =>
      rw [List.getLast?_cons_cons]
      have hne : (b :: bs).getLast?.isSome := by simp [List.getLast?_isSome]
      obtain ⟨x, hx⟩ := Option.isSome_iff_exists.mp hne
      rw [hx]
      rfl

theorem lastMatch_cons (w : WeightEntry) (ws : List WeightEntry) (n : String)
    (s : List Nat) :
    lastMatch (w :: ws) n s =
      if w.name = n ∧ w.shape = s then some ((lastMatch ws n s).getD w)
      else lastMatch ws n s := by
  unfold lastMatch
  rw [List.filter_cons]
  by_cases h : w.name = n ∧ w.shape = s
  · rw [if_pos (by simpa using h), if_pos h, getLast?_cons_eq]
  · rw [if_neg (by simpa using h), if_neg h]

theorem assignVar_sig (vars : ModelVars) (n : String) (d : List ℚ) :
    (assignVar vars n d).map varSig = vars.map varSig := by
  rw [assignVar, List.map_map]
  apply List.map_congr_left
  intro v _
  by_cases h : v.name = n <;> simp [varSig, Function.comp, h]

theorem importStep_sig (vars : ModelVars) (w : WeightEntry) :
    (importStep vars w).map varSig = vars.map varSig := by
  cases hl : lookupVar vars w.name with
  | none => simp [importStep, hl]
  | some v =>
      simp only [importStep, hl]
      by_cases h : v.shape = w.shape
      · rw [if_pos h, assignVar_sig]
      · rw [if_neg h]

theorem map_name_eq_sig_fst (l : ModelVars) :
    l.map NamedVar.name = (l.map varSig).map Prod.fst := by
  rw [List.map_map]
  rfl

theorem importStep_names (vars : ModelVars) (w : WeightEntry) :
    (importStep vars w).map NamedVar.name = vars.map NamedVar.name := by
  rw [map_name_eq_sig_fst, map_name_eq_sig_fst, importStep_sig]

theorem importWeights_sig (ws : List WeightEntry) :
    ∀ vars : ModelVars, (importWeights vars ws).map varSig = vars.map varSig := by
  induction ws with
  | nil => intro vars; rfl
  | cons w ws ih =>
      intro vars
      rw [importWeights, ih, importStep_sig]

theorem lookupVar_eq_none_iff (vars : ModelVars) (n : String) :
    lookupVar vars n = none ↔ ∀ v ∈ vars, v.name ≠ n := by
  induction vars with
  | nil => simp [lookupVar]
  | cons v vs ih =>
      by_cases h : v.name = n
      · simp [lookupVar, h]
      · simp [lookupVar, h, ih]

theorem lookupVar_some_mem (vars : ModelVars) (n : String) (v0 : NamedVar)
    (h : lookupVar vars n = some v0) : v0 ∈ vars ∧ v0.name = n := by
  induction vars with
  | nil => cases h
  | cons v vs ih =>
      by_cases hv : v.name = n
      · rw [lookupVar, if_pos hv] at h
        cases h
        exact ⟨List.mem_cons_self _ _, hv⟩
      · rw [lookupVar, if_neg hv] at h
        obtain ⟨h1, h2⟩ := ih h
        exact ⟨List.mem_cons_of_mem _ h1, h2⟩

theorem lookupVar_unique (vars : ModelVars)
    (hnd : (vars.map NamedVar.name).Nodup) (n : String) (v0 : NamedVar)
    (h : lookupVar vars n = some v0) :
    ∀ v ∈ vars, v.name = n → v = v0 := by
  induction vars with
  | nil => intro v hv; cases hv
  | cons w vs ih =>
      rw [List.map_cons, List.nodup_cons] at hnd
      intro v hv hn
      by_cases hw : w.name = n
      · rw [lookupVar, if_pos hw] at h
        cases h
        rcases List.mem_cons.mp hv with rfl | hvs
        · rfl
        · exact absurd (List.mem_map.mpr ⟨v, hvs, by rw [hn, hw]⟩) hnd.1
      · rw [lookupVar, if_neg hw] at h
        rcases List.mem_cons.mp hv with rfl | hvs
        · exact absurd hn hw
        · exact ih hnd.2 h v hvs hn

/-- The import loop realizes the per-parameter independent restore: with the
model's (pairwise-distinct) variable names, each live variable ends up with
the data of the last matching saved entry, or its original data when no
entry matches. -/
theorem importWeights_restores (ws : List WeightEntry) :
    ∀ vars : ModelVars, (vars.map NamedVar.name).Nodup →
      importWeights vars ws = vars.map (specRestore ws) := by
  induction ws with
  | nil =>
      intro vars _
      rw [importWeights]
      have h2 : vars.map (specRestore []) = vars.map id :=
        List.map_congr_left (fun v _ => rfl)
      rw [h2, List.map_id]
  | cons w ws ih =>
      intro vars hnd
      rw [importWeights, ih (importStep vars w)
        (by rw [importStep_names]; exact hnd)]
      cases hl : lookupVar vars w.name with
      | none =>
          have hnone := (lookupVar_eq_none_iff vars w.name).mp hl
          simp only [importStep, hl]
          apply List.map_congr_left
          intro v hv
          have hnm : ¬(w.name = v.name ∧ w.shape = v.shape) := by
            intro hc
            exact hnone v hv hc.1.symm
          rw [specRestore, specRestore, lastMatch_cons, if_neg hnm]
      | some v0 =>
          by_cases hsh : v0.shape = w.shape
          · simp only [importStep, hl, if_pos hsh, assignVar, List.map_map]
            apply List.map_congr_left
            intro v hv
            simp only [Function.comp]
            by_cases hvn : v.name = w.name
            · have hveq : v = v0 := lookupVar_unique vars hnd w.name v0 hl v hv hvn
              have hmatch : w.name = v.name ∧ w.shape = v.shape :=
                ⟨hvn.symm, by rw [hveq]; exact hsh.symm⟩
              rw [if_pos hvn, specRestore, specRestore, lastMatch_cons,
                if_pos hmatch]
              cases hlm : lastMatch ws v.name v.shape with
              | none => simp [hlm]
              | some x => simp [hlm]
            · have hnm : ¬(w.name = v.name ∧ w.shape = v.shape) := by
                intro hc
                exact hvn hc.1.symm
              rw [if_neg hvn, specRestore, specRestore, lastMatch_cons,
                if_neg hnm]
          · simp only [importStep, hl, if_neg hsh]
            apply List.map_congr_left
            intro v hv
            by_cases hvn : v.name = w.name
            · have hveq : v = v0 := lookupVar_unique vars hnd w.name v0 hl v hv hvn
              have hnm : ¬(w.name = v.name ∧ w.shape = v.shape) := by
                intro hc
                exact hsh (by rw [← hveq]; exact hc.2.symm)
              rw [specRestore, specRestore, lastMatch_cons, if_neg hnm]
            · have hnm : ¬(w.name = v.name ∧ w.shape = v.shape) := by
                intro hc
                exact hvn hc.1.symm
              rw [specRestore, specRestore, lastMatch_cons, if_neg hnm]

theorem filter_exportWeights_self (v : NamedVar) :
    ∀ vars : ModelVars, (vars.map NamedVar.name).Nodup → v ∈ vars →
      (exportWeights vars).filter
          (fun w => decide (w.name = v.name ∧ w.shape = v.shape)) =
        [⟨v.name, v.shape, v.data⟩] := by
  intro vars
  induction vars with
  | nil => intro _ hv; cases hv
  | cons u us ih =>
      intro hnd hv
      rw [List.map_cons, List.nodup_cons] at hnd
      rw [exportWeights, List.map_cons, List.filter_cons]
      rcases List.mem_cons.mp hv with rfl | hvs
      · rw [if_pos (by simp)]
        have hrest : (us.map (fun x =>
            ({ name := x.name, shape := x.shape, data := x.data } : WeightEntry))).filter
              (fun w => decide (w.name = v.name ∧ w.shape = v.shape)) = [] := by
          rw [List.filter_eq_nil_iff]
          intro w hw
          simp only [List.mem_map] at hw
          obtain ⟨x, hx, rfl⟩ := hw
          simp only [decide_eq_true_eq, not_and]
          intro hname
          exact absurd (List.mem_map.mpr ⟨x, hx, hname⟩) hnd.1
        rw [hrest]
      · have hu : ¬(u.name = v.name ∧ u.shape = v.shape) := by
          intro hc
          exact hnd.1 (List.mem_map.mpr ⟨v, hvs, hc.1.symm⟩)
        rw [if_neg (by simpa using hu)]
        exact ih hnd.2 hvs

/-- C3: importing the state produced by exporting a model back into the
same model is the identity — every parameter tensor keeps exactly its
values (names and shapes all match, so nothing is skipped and the data is
copied back verbatim), and the restored tokenizer equals the original. -/
theorem export_import_roundtrip (vars : ModelVars)
    (hnd : (vars.map NamedVar.name).Nodup) (config : ModelConfig)
    (tokenizer : SimpleTokenizer) (now : Nat) :
    importModelState vars (exportModelState vars config tokenizer now) = vars ∧
    importTokenizer (exportModelState vars config tokenizer now).tokenizer =
      tokenizer := by
  constructor
  · rw [importModelState, exportModelState]
    rw [importWeights_restores _ vars hnd]
    have hid : ∀ v ∈ vars, specRestore (exportWeights vars) v = v := by
      intro v hv
      rw [specRestore, lastMatch, filter_exportWeights_self v vars hnd hv]
      rfl
    rw [List.map_congr_left hid]
    simp
  · rfl

/-- C3 witness: a two-variable model with the source's naming scheme. -/
theorem export_import_roundtrip_witness :
    importModelState [⟨"emb_embedding", [2, 2], [1, 2, 3, 4]⟩,
        ⟨"final_proj", [2, 1], [5, 6]⟩]
      (exportModelState [⟨"emb_embedding", [2, 2], [1, 2, 3, 4]⟩,
          ⟨"final_proj", [2, 1], [5, 6]⟩] cfgOdd (buildTokenizer ['A', 'B']) 7) =
      [⟨"emb_embedding", [2, 2], [1, 2, 3, 4]⟩, ⟨"final_proj", [2, 1], [5, 6]⟩] ∧
    importTokenizer
        (exportModelState [⟨"emb_embedding", [2, 2], [1, 2, 3, 4]⟩,
            ⟨"final_proj", [2, 1], [5, 6]⟩] cfgOdd
          (buildTokenizer ['A', 'B']) 7).tokenizer =
      buildTokenizer ['A', 'B'] :=
  export_import_roundtrip
    [⟨"emb_embedding", [2, 2], [1, 2, 3, 4]⟩, ⟨"final_proj", [2, 1], [5, 6]⟩]
    (by decide) cfgOdd (buildTokenizer ['A', 'B']) 7

/-- C7: the import loop processes each saved weight independently — an
absent name is skipped, a shape mismatch is skipped, and every remaining
entry overwrites the matching live tensor's data; no mismatch aborts the
(total, never-throwing) import, every matching parameter is still restored
(each live variable receives the last matching entry's data, or keeps its
own), and no variable's name or shape changes. -/
theorem import_partial_tolerant (vars : ModelVars) (ws : List WeightEntry)
    (hnd : (vars.map NamedVar.name).Nodup) :
    importWeights vars ws = vars.map (specRestore ws) ∧
    (importWeights vars ws).map varSig = vars.map varSig :=
  ⟨importWeights_restores ws vars hnd, importWeights_sig ws vars⟩

/-- C7 witness: a state with one absent name (`zz`), one shape mismatch
(`emb_embedding` as `[3]`) and one matching entry; the import equals the
independent per-parameter restore. -/
theorem import_partial_tolerant_witness :
    importWeights [⟨"emb_embedding", [2], [1, 2]⟩, ⟨"final_proj", [1], [5]⟩]
        [⟨"zz", [2], [9, 9]⟩, ⟨"emb_embedding", [3], [7, 7, 7]⟩,
          ⟨"emb_embedding", [2], [3, 4]⟩] =
      [⟨"emb_embedding", [2], [1, 2]⟩, ⟨"final_proj", [1], [5]⟩].map
        (specRestore [⟨"zz", [2], [9, 9]⟩, ⟨"emb_embedding", [3], [7, 7, 7]⟩,
          ⟨"emb_embedding", [2], [3, 4]⟩]) ∧
    (importWeights [⟨"emb_embedding", [2], [1, 2]⟩, ⟨"final_proj", [1], [5]⟩]
        [⟨"zz", [2], [9, 9]⟩, ⟨"emb_embedding", [3], [7, 7, 7]⟩,
          ⟨"emb_embedding", [2], [3, 4]⟩]).map varSig =
      [⟨"emb_embedding", [2], [1, 2]⟩, ⟨"final_proj", [1], [5]⟩].map varSig :=
  import_partial_tolerant
    [⟨"emb_embedding", [2], [1, 2]⟩, ⟨"final_proj", [1], [5]⟩]
    [⟨"zz", [2], [9, 9]⟩, ⟨"emb_embedding", [3], [7, 7, 7]⟩,
      ⟨"emb_embedding", [2], [3, 4]⟩] (by decide)

/- ============== Prediction (src/services/transformer.ts) ================ -/

/-- Attention weights as returned by `attentionWeights.arraySync()`:
shape `[batch, heads, seq, seq]`. -/
abbrev AttnArray := List (List (List (List ℚ)))

/-- `TransformerModel.predict(tokenIds)`: the guard
`if (tokenIds.length === 0) return { predictedId: 0, attentionWeights: [] }`
fires before any tensor is created; the non-empty branch — forward pass,
last-position slice, `argMax`, `arraySync` — is the tfjs tensor computation,
abstracted as `fwd`. -/
def predict (fwd : List Nat → Nat × AttnArray) (tokenIds : List Nat) :
    Nat × AttnArray :=
  if tokenIds = [] then (0, []) else fwd tokenIds

/-- C9: `predict` on the empty token-id list returns the well-defined
degenerate result — predicted id `0` and empty attention weights — for
every underlying forward computation; the guard makes the call total, so it
never throws. -/
theorem predict_empty_input (fwd : List Nat → Nat × AttnArray) :
    predict fwd [] = (0, []) := rfl
